import Mathlib

/-!
# Verification of the EvoLisa hill-climbing image approximator

Shallow embedding of `src/evolisa.py`: the polygon-set data model, the six
mutation operators defined inside `generate`/`changes`, the scorer
(`error_abs`, `error_percent`), and the search loop step (`iterate`).

Conventions of the embedding:
* numpy integer arrays become Lean `List`s of `ℤ`/`ℕ`; a polygon's flat
  coordinate buffer of `2 * max_points` ints (x at even offsets, y at odd
  offsets) is represented as a list of `max_points` coordinate pairs, so the
  source's paired even/odd slicing becomes operations on pairs;
* `uint8` storage is explicit: a value is clipped and then reduced mod 256,
  exactly as numpy does when assigning an out-of-range integer into a
  `uint8` array;
* calls to the random generators (`randint`, `np.random.choice`,
  `np.random.permutation`) become explicit parameters carrying the drawn
  values; where a property depends on the range of a draw, that range is a
  hypothesis;
* the only piece of behaviour delegated to an external library (PIL's
  scan-conversion of a filled polygon) is abstracted as a `coverage`
  parameter telling which pixels a polygon with given vertices covers; the
  per-pixel alpha compositing and the fold over polygons in array order are
  embedded directly.
-/

namespace EvoLisa

/-- One RGB pixel of a raster buffer (channel values are 8-bit in the code,
so well-formed pixels have channels `≤ 255`). -/
structure RGB where
  r : ℕ
  g : ℕ
  b : ℕ
deriving DecidableEq, Repr

/-- One polygon's RGBA color, the four `uint8` channels of a row of the
`colors` array. -/
structure RGBA where
  r : ℕ
  g : ℕ
  b : ℕ
  a : ℕ
deriving DecidableEq, Repr

/-- A raster buffer: a list of `height` rows of `width` RGB pixels,
embedding the `width × height × 3` numpy matrix. -/
abbrev Raster := List (List RGB)

/-- The polygon set: the three parallel containers returned by the source's
polygon initialisation and threaded through every mutation operator.
`shapes` holds, per polygon, `max_points` coordinate pairs; `points` (called
`sides` in the spec) holds the active side counts; `colors` holds the RGBA
channels. -/
structure PState where
  shapes : List (List (ℤ × ℤ))
  points : List ℕ
  colors : List RGBA
deriving DecidableEq, Repr

/-- `np.clip(v, lo, hi)` on a single integer. -/
def clampI (lo hi v : ℤ) : ℤ := max lo (min v hi)

/-- `np.clip(v, 0, 256)` followed by storage into a `uint8` slot: numpy
clips to `[0, 256]` and then reduces mod 256 on assignment into the `uint8`
`colors` array (so a clipped value of exactly 256 is stored as 0). -/
def clipChan (v : ℤ) : ℕ := (clampI 0 256 v).toNat % 256

/-- The `point` operator: `shapes[index, point:point+2] =
np.clip(shapes[index, point:point+2] + change, 0, [width, height])` where
`point = np.random.choice(max_points) * 2` (here `pairIdx`, the chosen pair)
and `change = randint(-point_rng, point_rng+1, size=2)` (here `dx, dy`). -/
def point (width height : ℕ) (st : PState) (index pairIdx : ℕ) (dx dy : ℤ) : PState :=
  let poly := st.shapes.getD index []
  let p := poly.getD pairIdx (0, 0)
  let p' := (clampI 0 width (p.1 + dx), clampI 0 height (p.2 + dy))
  { st with shapes := st.shapes.set index (poly.set pairIdx p') }

/-- The `shape` operator: adds one offset pair, tiled over the whole
polygon, and clips against `boundaries = np.tile([width, height],
max_points)`, i.e. every x against `width` and every y against `height`. -/
def shape (width height : ℕ) (st : PState) (index : ℕ) (dx dy : ℤ) : PState :=
  let poly := st.shapes.getD index []
  let poly' := poly.map fun p => (clampI 0 width (p.1 + dx), clampI 0 height (p.2 + dy))
  { st with shapes := st.shapes.set index poly' }

/-- The `order` operator: `shuffle = np.random.permutation(points[index])`
(here `perm`) is applied with fancy indexing to the x's and, with the same
`shuffle`, to the y's of the first `points[index]` pairs; in the paired
representation the new active pair `k` is the old active pair `perm[k]`,
and the inert tail is untouched. -/
def order (st : PState) (index : ℕ) (perm : List ℕ) : PState :=
  let poly := st.shapes.getD index []
  let s := st.points.getD index 0
  let active := poly.take s
  let poly' := perm.map (fun j => active.getD j (0, 0)) ++ poly.drop s
  { st with shapes := st.shapes.set index poly' }

/-- The `number` operator: on a fresh copy of `points`, adds 1 when the
entry equals `min_points`, else subtracts 1 when it equals `max_points`,
else moves by `np.random.choice([1, -1])` (here the Boolean `up`). -/
def number (minPts maxPts : ℕ) (st : PState) (index : ℕ) (up : Bool) : PState :=
  let s := st.points.getD index 0
  let s' := if s = minPts then s + 1
            else if s = maxPts then s - 1
            else if up then s + 1 else s - 1
  { st with points := st.points.set index s' }

/-- The `color` operator: `colors[index][:3] = np.clip(colors[index][:3] +
change, 0, 256)` with `change = randint(-100, 101, size=3)` (here
`dr, dg, db`); the addition happens in a wide integer type and the result
is stored back into the `uint8` array. The alpha channel is untouched. -/
def color (st : PState) (index : ℕ) (dr dg db : ℤ) : PState :=
  let c := st.colors.getD index ⟨0, 0, 0, 0⟩
  let c' : RGBA := ⟨clipChan ((c.r : ℤ) + dr), clipChan ((c.g : ℤ) + dg),
                    clipChan ((c.b : ℤ) + db), c.a⟩
  { st with colors := st.colors.set index c' }

/-- The `alpha` operator: `colors[index][3] = np.clip(colors[index][3] +
change, 0, 256)` with `change = randint(-100, 101)` (here `da`). -/
def alpha (st : PState) (index : ℕ) (da : ℤ) : PState :=
  let c := st.colors.getD index ⟨0, 0, 0, 0⟩
  let c' : RGBA := ⟨c.r, c.g, c.b, clipChan ((c.a : ℤ) + da)⟩
  { st with colors := st.colors.set index c' }

/-- The six mutation operators `changes` picks from with
`np.random.choice([point, shape, order, number, color, alpha])`. -/
inductive MutOp where
  | point
  | shape
  | order
  | number
  | color
  | alpha
deriving DecidableEq, Repr

/-- The random draws one call of `changes` can consume, bundled: the chosen
pair slot for `point`, the coordinate offsets, the permutation for `order`,
the direction for `number`, and the channel offsets for `color`/`alpha`. -/
structure Rand where
  pairIdx : ℕ
  dx : ℤ
  dy : ℤ
  perm : List ℕ
  up : Bool
  dr : ℤ
  dg : ℤ
  db : ℤ
  da : ℤ
deriving DecidableEq, Repr

/-- The body of `changes`: dispatch the drawn operator on the drawn polygon
index. -/
def changes (minPts maxPts width height : ℕ) (st : PState) (index : ℕ)
    (op : MutOp) (r : Rand) : PState :=
  match op with
  | .point => point width height st index r.pairIdx r.dx r.dy
  | .shape => shape width height st index r.dx r.dy
  | .order => order st index r.perm
  | .number => number minPts maxPts st index r.up
  | .color => color st index r.dr r.dg r.db
  | .alpha => alpha st index r.da

/-- A pixel coverage oracle: the geometric kernel of PIL's
`ImageDraw.polygon`, abstracted. `cov pts x y` tells whether the filled
polygon with active vertex list `pts` covers pixel `(x, y)`. Every theorem
about the rasterizer below holds for every coverage oracle, so in
particular for the one PIL implements. -/
abbrev Coverage := List (ℤ × ℤ) → ℕ → ℕ → Bool

/-- Alpha compositing of one RGBA source over one RGB destination pixel,
the per-pixel effect of PIL's RGBA polygon draw on an RGB canvas:
`out = (src * a + dst * (255 - a)) / 255` per channel. -/
def composite (dst : RGB) (c : RGBA) : RGB :=
  ⟨(c.r * c.a + dst.r * (255 - c.a)) / 255,
   (c.g * c.a + dst.g * (255 - c.a)) / 255,
   (c.b * c.a + dst.b * (255 - c.a)) / 255⟩

/-- Painting one polygon onto the canvas: every covered pixel is
alpha-composited with the polygon's color, the rest are untouched. -/
def paintPoly (canvas : Raster) (pts : List (ℤ × ℤ)) (c : RGBA) (cov : Coverage) : Raster :=
  canvas.mapIdx fun y row => row.mapIdx fun x px =>
    if cov pts x y then composite px c else px

/-- The all-white canvas `plImage.new('RGB', (width, height), (255, 255,
255, 0))` that `draw_image` starts from. -/
def whiteRaster (width height : ℕ) : Raster :=
  List.replicate height (List.replicate width ⟨255, 255, 255⟩)

/-- `draw_image` at internal resolution (the `antialiasing=False` case used
by the search loop, `scale = 1`): fold the polygons in array order over the
white canvas, each drawn from its first `points[i]` coordinate pairs with
its RGBA color. -/
def draw_image (width height : ℕ) (st : PState) (cov : Coverage) : Raster :=
  (st.shapes.zip (st.points.zip st.colors)).foldl
    (fun canvas sc => paintPoly canvas (sc.1.take sc.2.1) sc.2.2 cov)
    (whiteRaster width height)

/-- Per-pixel absolute difference summed over the three channels,
`|a[p,c] - b[p,c]|` computed in a signed type as in
`np.abs(np.subtract(a, b, dtype='i4'))`. -/
def pxDiff (p q : RGB) : ℕ :=
  ((p.r : ℤ) - q.r).natAbs + ((p.g : ℤ) - q.g).natAbs + ((p.b : ℤ) - q.b).natAbs

/-- One row of the pixel-difference sum. -/
def rowDiff (r s : List RGB) : ℕ := (List.zipWith pxDiff r s).sum

/-- `error_abs(a, b) = np.abs(np.subtract(a, b, dtype='i4')).sum()`:
the total absolute pixel difference of two same-shaped rasters. -/
def error_abs (a b : Raster) : ℕ := (List.zipWith rowDiff a b).sum

/-- `error_percent(error, image) = error / (image.shape[0] * image.shape[1]
* 255 * 3) * 100`; `shape[0]` is the row count (height) and `shape[1]` the
row length (width). The Python float division is embedded as exact `ℚ`
division. -/
def error_percent (error : ℕ) (image : Raster) : ℚ :=
  (error : ℚ) / ((image.length : ℚ) * ((image.headD []).length : ℚ) * 255 * 3) * 100

/-- The search state owned by the loop in `generate`: the accepted polygon
set, its render, and its `error_abs` score against the internal target. -/
structure SearchState where
  pstate : PState
  image : Raster
  score : ℕ
deriving DecidableEq, Repr

/-- The random draws consumed by one loop iteration: the target polygon
index (`randint(n_shapes)`), the operator choice, and the operator's own
draws. -/
structure MutChoice where
  index : ℕ
  op : MutOp
  r : Rand
deriving DecidableEq, Repr

/-- One body of `iterate`: apply `changes`, render the candidate, score it
against the internal target, and keep the candidate exactly when
`new_score <= score`. -/
def iterate (minPts maxPts width height : ℕ) (cov : Coverage) (internal : Raster)
    (st : SearchState) (m : MutChoice) : SearchState :=
  let newP := changes minPts maxPts width height st.pstate m.index m.op m.r
  let newImage := draw_image width height newP cov
  let newScore := error_abs internal newImage
  if newScore ≤ st.score then ⟨newP, newImage, newScore⟩ else st

/-- The search loop: fold `iterate` over a list of drawn mutation choices
(the unbounded `while True` loop observed for finitely many steps). -/
def run (minPts maxPts width height : ℕ) (cov : Coverage) (internal : Raster)
    (st : SearchState) (ms : List MutChoice) : SearchState :=
  ms.foldl (iterate minPts maxPts width height cov internal) st

/-- The source's polygon initialisation: x coordinates drawn by
`randint(0, width)`, y coordinates by `randint(0, height)`, side counts
`np.full(n_shapes, min_points)`, colors `randint(0, 256, size=(n_shapes,
4))`. The generators are passed in as functions of (polygon, slot). -/
def initPolys (nShapes minPts maxPts : ℕ) (rx ry : ℕ → ℕ → ℤ) (rc : ℕ → ℕ → ℕ) : PState :=
  { shapes := (List.range nShapes).map fun i =>
      (List.range maxPts).map fun j => (rx i j, ry i j)
    points := List.replicate nShapes minPts
    colors := (List.range nShapes).map fun i => ⟨rc i 0, rc i 1, rc i 2, rc i 3⟩ }

/-- Coordinates all inside the canvas `[0, width] × [0, height]` (the
clamping bound used by `point` and `shape`). -/
def CoordsOK (width height : ℕ) (shapes : List (List (ℤ × ℤ))) : Prop :=
  ∀ poly ∈ shapes, ∀ p ∈ poly, 0 ≤ p.1 ∧ p.1 ≤ (width : ℤ) ∧ 0 ≤ p.2 ∧ p.2 ≤ (height : ℤ)

/-- All side counts inside `[min_points, max_points]`. -/
def SidesOK (minPts maxPts : ℕ) (points : List ℕ) : Prop :=
  ∀ s ∈ points, minPts ≤ s ∧ s ≤ maxPts

/-- All color channels inside `[0, 255]` (8-bit values). -/
def ColorsOK (colors : List RGBA) : Prop :=
  ∀ c ∈ colors, c.r ≤ 255 ∧ c.g ≤ 255 ∧ c.b ≤ 255 ∧ c.a ≤ 255

/-- The clamping invariant of the spec, over a whole polygon set. -/
def Inv (minPts maxPts width height : ℕ) (st : PState) : Prop :=
  CoordsOK width height st.shapes ∧ SidesOK minPts maxPts st.points ∧ ColorsOK st.colors

/-- Validity of the random draws of one `changes` call, as produced by the
source's samplers: `point` picks its pair slot from
`np.random.choice(max_points)`, and `order` draws
`np.random.permutation(points[index])`. (Coordinate and channel offsets
are left unconstrained here: the clamping invariants hold for arbitrary
offsets, which covers the sampled ranges.) -/
def randOK (maxPts : ℕ) (st : PState) (index : ℕ) (op : MutOp) (r : Rand) : Prop :=
  match op with
  | .point => r.pairIdx < maxPts
  | .order => List.Perm r.perm (List.range (st.points.getD index 0))
  | _ => True

/-- The states the search can hold: an initialised polygon set (for draws
in the ranges the source's `randint` calls use), closed under one
application of `changes` with a valid polygon index and valid operator
draws. -/
inductive Reachable (nShapes minPts maxPts width height : ℕ) : PState → Prop
  | init (rx ry : ℕ → ℕ → ℤ) (rc : ℕ → ℕ → ℕ)
      (hx : ∀ i j, 0 ≤ rx i j ∧ rx i j < (width : ℤ))
      (hy : ∀ i j, 0 ≤ ry i j ∧ ry i j < (height : ℤ))
      (hc : ∀ i k, rc i k ≤ 255) :
      Reachable nShapes minPts maxPts width height (initPolys nShapes minPts maxPts rx ry rc)
  | step (st : PState) (index : ℕ) (op : MutOp) (r : Rand)
      (hst : Reachable nShapes minPts maxPts width height st)
      (hidx : index < nShapes)
      (hr : randOK maxPts st index op r) :
      Reachable nShapes minPts maxPts width height (changes minPts maxPts width height st index op r)

/-- A raster has `height` rows of `width` pixels each (the shape constraint
numpy enforces before `np.subtract` broadcasts two equal-shape matrices). -/
def Dims (r : Raster) (width height : ℕ) : Prop :=
  r.length = height ∧ ∀ row ∈ r, row.length = width

/-- All pixel channels of a raster are 8-bit values (`≤ 255`). -/
def ChansLe (r : Raster) : Prop :=
  ∀ row ∈ r, ∀ p ∈ row, p.r ≤ 255 ∧ p.g ≤ 255 ∧ p.b ≤ 255

/-! ## Helper lemmas -/

/-- A `getD` lookup is either a member of the list or the default. -/
theorem mem_getD_or {α : Type _} (l : List α) (j : ℕ) (d : α) :
    l.getD j d ∈ l ∨ l.getD j d = d := by
  by_cases h : j < l.length
  · left
    rw [List.getD_eq_getElem l d h]
    exact List.getElem_mem h
  · right
    rw [List.getD_eq_getElem?_getD, List.getElem?_eq_none (le_of_not_lt h)]
    rfl

/-- `np.clip` lands in the clipping interval. -/
theorem clampI_bounds (lo hi v : ℤ) (h : lo ≤ hi) :
    lo ≤ clampI lo hi v ∧ clampI lo hi v ≤ hi :=
  ⟨le_max_left _ _, max_le h (min_le_right _ _)⟩

/-- A `uint8` store is always an 8-bit value. -/
theorem clipChan_le (v : ℤ) : clipChan v ≤ 255 :=
  Nat.le_of_lt_succ (Nat.mod_lt _ (by norm_num))

/-- One loop step never increases the accepted score. -/
theorem iterate_score_le (minPts maxPts width height : ℕ) (cov : Coverage)
    (internal : Raster) (st : SearchState) (m : MutChoice) :
    (iterate minPts maxPts width height cov internal st m).score ≤ st.score := by
  unfold iterate
  dsimp only
  split
  · assumption
  · exact le_rfl

/-- The accepted score after any number of loop steps is at most the
starting score. -/
theorem run_score_le (minPts maxPts width height : ℕ) (cov : Coverage)
    (internal : Raster) (st : SearchState) (ms : List MutChoice) :
    (run minPts maxPts width height cov internal st ms).score ≤ st.score := by
  induction ms generalizing st with
  | nil => exact le_rfl
  | cons m ms ih =>
    exact le_trans (ih (iterate minPts maxPts width height cov internal st m))
      (iterate_score_le minPts maxPts width height cov internal st m)

/-! ## Claims -/

/-- C1: one iteration of the search loop replaces the state with the
candidate (polygon set, raster, score) exactly when the candidate's
absolute error is at most the current score (ties accepted), otherwise the
state is returned unchanged; consequently the accepted score at step `k+1`
is at most the accepted score at step `k`, for every run. -/
theorem C1_acceptance (minPts maxPts width height : ℕ) (cov : Coverage)
    (internal : Raster) (st : SearchState) (m : MutChoice) (ms : List MutChoice) (k : ℕ) :
    (error_abs internal (draw_image width height
        (changes minPts maxPts width height st.pstate m.index m.op m.r) cov) ≤ st.score →
      iterate minPts maxPts width height cov internal st m =
        ⟨changes minPts maxPts width height st.pstate m.index m.op m.r,
         draw_image width height
           (changes minPts maxPts width height st.pstate m.index m.op m.r) cov,
         error_abs internal (draw_image width height
           (changes minPts maxPts width height st.pstate m.index m.op m.r) cov)⟩) ∧
    (st.score < error_abs internal (draw_image width height
        (changes minPts maxPts width height st.pstate m.index m.op m.r) cov) →
      iterate minPts maxPts width height cov internal st m = st) ∧
    (run minPts maxPts width height cov internal st (ms.take (k + 1))).score ≤
      (run minPts maxPts width height cov internal st (ms.take k)).score := by
  refine ⟨fun h => ?_, fun h => ?_, ?_⟩
  · unfold iterate
    dsimp only
    rw [if_pos h]
  · unfold iterate
    dsimp only
    rw [if_neg (not_le.mpr h)]
  · rw [List.take_succ]
    unfold run
    rw [List.foldl_append]
    cases h : ms[k]? with
    | none => exact le_rfl
    | some m' =>
      simp only [Option.toList, List.foldl_cons, List.foldl_nil]
      exact iterate_score_le minPts maxPts width height cov internal _ m'

/-- Witness for C1 at a concrete input: a 1×1 white target, the current
state already at score 0, and a `number` mutation whose candidate also
renders white (score 0 ≤ 0), so the candidate replaces the state. -/
theorem C1_acceptance_witness :
    iterate 3 4 1 1 (fun _ _ _ => false) (whiteRaster 1 1)
      ⟨⟨[[(0, 0)]], [3], [⟨255, 255, 255, 255⟩]⟩, whiteRaster 1 1, 0⟩
      ⟨0, MutOp.number, ⟨0, 0, 0, [], true, 0, 0, 0, 0⟩⟩ =
      ⟨changes 3 4 1 1 ⟨[[(0, 0)]], [3], [⟨255, 255, 255, 255⟩]⟩ 0 MutOp.number
         ⟨0, 0, 0, [], true, 0, 0, 0, 0⟩,
       draw_image 1 1 (changes 3 4 1 1 ⟨[[(0, 0)]], [3], [⟨255, 255, 255, 255⟩]⟩ 0 MutOp.number
         ⟨0, 0, 0, [], true, 0, 0, 0, 0⟩) (fun _ _ _ => false),
       error_abs (whiteRaster 1 1)
         (draw_image 1 1 (changes 3 4 1 1 ⟨[[(0, 0)]], [3], [⟨255, 255, 255, 255⟩]⟩ 0 MutOp.number
           ⟨0, 0, 0, [], true, 0, 0, 0, 0⟩) (fun _ _ _ => false))⟩ :=
  (C1_acceptance 3 4 1 1 (fun _ _ _ => false) (whiteRaster 1 1)
    ⟨⟨[[(0, 0)]], [3], [⟨255, 255, 255, 255⟩]⟩, whiteRaster 1 1, 0⟩
    ⟨0, MutOp.number, ⟨0, 0, 0, [], true, 0, 0, 0, 0⟩⟩ [] 0).1 (by decide)

/-- C4: contrary to the claim, the color and alpha operators do NOT
compute `clamp(old + offset, 0, 255)`: the source clips to `[0, 256]` and
stores into a `uint8` array, so a pre-clamp sum of 256 or more is stored
as 0, not 255. Concretely, an R channel of 200 with offset +56 becomes 0,
and an alpha of 255 with offset +1 becomes 0. -/
theorem C4_clip_wraparound :
    ((color ⟨[[(0, 0)]], [3], [⟨200, 100, 100, 255⟩]⟩ 0 56 0 0).colors.getD 0 ⟨0, 0, 0, 0⟩).r
      = 0 ∧
    ((alpha ⟨[[(0, 0)]], [3], [⟨200, 100, 100, 255⟩]⟩ 0 1).colors.getD 0 ⟨0, 0, 0, 0⟩).a
      = 0 := by
  decide

/-- C10: for valid parameters and draws in the ranges the source's
`randint` calls use, the initialisation gives every polygon exactly
`min_points` active sides (so the initial side-count sum is `n_shapes *
min_points` and the mean is `min_points`), coordinates inside
`[0, width-1] × [0, height-1]`, and color channels inside `[0, 255]`. -/
theorem C10_initPolys (nShapes minPts maxPts width height : ℕ)
    (rx ry : ℕ → ℕ → ℤ) (rc : ℕ → ℕ → ℕ)
    (_hn : 1 ≤ nShapes) (_hmm : minPts ≤ maxPts) (_hw : 1 ≤ width) (_hh : 1 ≤ height)
    (hx : ∀ i j, 0 ≤ rx i j ∧ rx i j ≤ (width : ℤ) - 1)
    (hy : ∀ i j, 0 ≤ ry i j ∧ ry i j ≤ (height : ℤ) - 1)
    (hc : ∀ i k, rc i k ≤ 255) :
    (∀ s ∈ (initPolys nShapes minPts maxPts rx ry rc).points, s = minPts) ∧
    (initPolys nShapes minPts maxPts rx ry rc).points.sum = nShapes * minPts ∧
    (∀ poly ∈ (initPolys nShapes minPts maxPts rx ry rc).shapes, ∀ p ∈ poly,
      0 ≤ p.1 ∧ p.1 ≤ (width : ℤ) - 1 ∧ 0 ≤ p.2 ∧ p.2 ≤ (height : ℤ) - 1) ∧
    ColorsOK (initPolys nShapes minPts maxPts rx ry rc).colors := by
  refine ⟨fun s hs => List.eq_of_mem_replicate hs, ?_, ?_, ?_⟩
  · show (List.replicate nShapes minPts).sum = nShapes * minPts
    rw [List.sum_replicate, smul_eq_mul]
  · intro poly hpoly p hp
    simp only [initPolys, List.mem_map, List.mem_range] at hpoly
    obtain ⟨i, _, rfl⟩ := hpoly
    simp only [List.mem_map, List.mem_range] at hp
    obtain ⟨j, _, rfl⟩ := hp
    exact ⟨(hx i j).1, (hx i j).2, (hy i j).1, (hy i j).2⟩
  · intro c hc'
    simp only [initPolys, List.mem_map, List.mem_range] at hc'
    obtain ⟨i, _, rfl⟩ := hc'
    exact ⟨hc i 0, hc i 1, hc i 2, hc i 3⟩

/-- Witness for C10 at concrete parameters and constant draw functions:
two polygons initialised with `min_points = 3` have side-count sum 6. -/
theorem C10_initPolys_witness :
    (initPolys 2 3 5 (fun _ _ => 4) (fun _ _ => 6) (fun _ _ => 9)).points.sum = 2 * 3 :=
  (C10_initPolys 2 3 5 10 10 (fun _ _ => 4) (fun _ _ => 6) (fun _ _ => 9)
    (by decide) (by decide) (by decide) (by decide)
    (by intro i j; norm_num) (by intro i j; norm_num) (by intro i k; norm_num)).2.1

/-- The `point` operator keeps all coordinates inside the canvas. -/
theorem coordsOK_point (width height : ℕ) (st : PState) (index pairIdx : ℕ) (dx dy : ℤ)
    (h : CoordsOK width height st.shapes) :
    CoordsOK width height (point width height st index pairIdx dx dy).shapes := by
  intro poly hpoly p hp
  rcases List.mem_or_eq_of_mem_set hpoly with h1 | rfl
  · exact h poly h1 p hp
  · rcases List.mem_or_eq_of_mem_set hp with h2 | rfl
    · rcases mem_getD_or st.shapes index [] with h3 | h3
      · exact h _ h3 p h2
      · rw [h3] at h2
        cases h2
    · obtain ⟨hx1, hx2⟩ := clampI_bounds 0 width _ (by positivity)
      obtain ⟨hy1, hy2⟩ := clampI_bounds 0 height _ (by positivity)
      exact ⟨hx1, hx2, hy1, hy2⟩

/-- The `shape` operator keeps all coordinates inside the canvas. -/
theorem coordsOK_shape (width height : ℕ) (st : PState) (index : ℕ) (dx dy : ℤ)
    (h : CoordsOK width height st.shapes) :
    CoordsOK width height (shape width height st index dx dy).shapes := by
  intro poly hpoly p hp
  rcases List.mem_or_eq_of_mem_set hpoly with h1 | rfl
  · exact h poly h1 p hp
  · rw [List.mem_map] at hp
    obtain ⟨q, _, rfl⟩ := hp
    obtain ⟨hx1, hx2⟩ := clampI_bounds 0 width _ (by positivity)
    obtain ⟨hy1, hy2⟩ := clampI_bounds 0 height _ (by positivity)
    exact ⟨hx1, hx2, hy1, hy2⟩

/-- The `order` operator keeps all coordinates inside the canvas. -/
theorem coordsOK_order (width height : ℕ) (st : PState) (index : ℕ) (perm : List ℕ)
    (h : CoordsOK width height st.shapes) :
    CoordsOK width height (order st index perm).shapes := by
  intro poly hpoly p hp
  rcases List.mem_or_eq_of_mem_set hpoly with h1 | rfl
  · exact h poly h1 p hp
  · have hin : ∀ q ∈ st.shapes.getD index [], 0 ≤ q.1 ∧ q.1 ≤ (width : ℤ) ∧
        0 ≤ q.2 ∧ q.2 ≤ (height : ℤ) := by
      intro q hq
      rcases mem_getD_or st.shapes index [] with h3 | h3
      · exact h _ h3 q hq
      · rw [h3] at hq
        cases hq
    rcases List.mem_append.mp hp with h2 | h2
    · rw [List.mem_map] at h2
      obtain ⟨j, _, rfl⟩ := h2
      rcases mem_getD_or ((st.shapes.getD index []).take (st.points.getD index 0)) j (0, 0)
          with h4 | h4
      · exact hin _ (List.mem_of_mem_take h4)
      · rw [h4]
        exact ⟨le_rfl, Int.natCast_nonneg width, le_rfl, Int.natCast_nonneg height⟩
    · exact hin p (List.mem_of_mem_drop h2)

/-- The `number` operator keeps all side counts inside
`[min_points, max_points]`, provided `min_points < max_points`. -/
theorem sidesOK_number (minPts maxPts : ℕ) (st : PState) (index : ℕ) (up : Bool)
    (hlt : minPts < maxPts) (h : SidesOK minPts maxPts st.points) :
    SidesOK minPts maxPts (number minPts maxPts st index up).points := by
  intro s hs
  by_cases hi : index < st.points.length
  · rcases List.mem_or_eq_of_mem_set hs with h1 | rfl
    · exact h s h1
    · have h0 : st.points.getD index 0 ∈ st.points := by
        rw [List.getD_eq_getElem _ _ hi]
        exact List.getElem_mem hi
      obtain ⟨hl, hu⟩ := h _ h0
      by_cases e1 : st.points.getD index 0 = minPts
      · rw [if_pos e1]
        exact ⟨Nat.le_succ_of_le hl, by omega⟩
      · rw [if_neg e1]
        by_cases e2 : st.points.getD index 0 = maxPts
        · rw [if_pos e2]
          omega
        · rw [if_neg e2]
          split <;> omega
  · have : (number minPts maxPts st index up).points = st.points :=
      List.set_eq_of_length_le (le_of_not_lt hi)
    rw [this] at hs
    exact h s hs

/-- The `color` operator keeps all channels 8-bit. -/
theorem colorsOK_color (st : PState) (index : ℕ) (dr dg db : ℤ)
    (h : ColorsOK st.colors) : ColorsOK (color st index dr dg db).colors := by
  intro c hc
  rcases List.mem_or_eq_of_mem_set hc with h1 | rfl
  · exact h c h1
  · refine ⟨clipChan_le _, clipChan_le _, clipChan_le _, ?_⟩
    rcases mem_getD_or st.colors index ⟨0, 0, 0, 0⟩ with h3 | h3
    · exact (h _ h3).2.2.2
    · rw [h3]
      exact Nat.zero_le 255

/-- The `alpha` operator keeps all channels 8-bit. -/
theorem colorsOK_alpha (st : PState) (index : ℕ) (da : ℤ)
    (h : ColorsOK st.colors) : ColorsOK (alpha st index da).colors := by
  intro c hc
  rcases List.mem_or_eq_of_mem_set hc with h1 | rfl
  · exact h c h1
  · rcases mem_getD_or st.colors index ⟨0, 0, 0, 0⟩ with h3 | h3
    · obtain ⟨h4, h5, h6, _⟩ := h _ h3
      exact ⟨h4, h5, h6, clipChan_le _⟩
    · rw [h3]
      exact ⟨Nat.zero_le 255, Nat.zero_le 255, Nat.zero_le 255, clipChan_le _⟩

/-- C2 (amended: `min_points < max_points` strictly; with
`min_points = max_points` the `number` operator leaves the interval, see
the counterexample): every reachable search state satisfies the clamping
invariants — coordinates in `[0, width] × [0, height]`, side counts in
`[min_points, max_points]`, channels in `[0, 255]`. -/
theorem C2_clamping_invariant (nShapes minPts maxPts width height : ℕ) (st : PState)
    (_hn : 1 ≤ nShapes) (_hmin : 3 ≤ minPts) (hlt : minPts < maxPts)
    (hst : Reachable nShapes minPts maxPts width height st) :
    Inv minPts maxPts width height st := by
  induction hst with
  | init rx ry rc hx hy hc =>
    refine ⟨?_, ?_, ?_⟩
    · intro poly hpoly p hp
      simp only [initPolys, List.mem_map, List.mem_range] at hpoly
      obtain ⟨i, _, rfl⟩ := hpoly
      simp only [List.mem_map, List.mem_range] at hp
      obtain ⟨j, _, rfl⟩ := hp
      exact ⟨(hx i j).1, le_of_lt (hx i j).2, (hy i j).1, le_of_lt (hy i j).2⟩
    · intro s hs
      rw [List.eq_of_mem_replicate hs]
      exact ⟨le_rfl, le_of_lt hlt⟩
    · intro c hc'
      simp only [initPolys, List.mem_map, List.mem_range] at hc'
      obtain ⟨i, _, rfl⟩ := hc'
      exact ⟨hc i 0, hc i 1, hc i 2, hc i 3⟩
  | step st index op r hst hidx hr ih =>
    obtain ⟨hcoord, hsides, hcolor⟩ := ih
    cases op with
    | point => exact ⟨coordsOK_point width height st index r.pairIdx r.dx r.dy hcoord,
        hsides, hcolor⟩
    | shape => exact ⟨coordsOK_shape width height st index r.dx r.dy hcoord, hsides, hcolor⟩
    | order => exact ⟨coordsOK_order width height st index r.perm hcoord, hsides, hcolor⟩
    | number => exact ⟨hcoord, sidesOK_number minPts maxPts st index r.up hlt hsides, hcolor⟩
    | color => exact ⟨hcoord, hsides, colorsOK_color st index r.dr r.dg r.db hcolor⟩
    | alpha => exact ⟨hcoord, hsides, colorsOK_alpha st index r.da hcolor⟩

/-- Witness for C2 (amended) at a concrete reachable state: one polygon
initialised with constant in-range draws for `min_points = 3 <
max_points = 4` on a 10×10 canvas. -/
theorem C2_clamping_invariant_witness :
    Inv 3 4 10 10 (initPolys 1 3 4 (fun _ _ => 1) (fun _ _ => 2) (fun _ _ => 7)) :=
  C2_clamping_invariant 1 3 4 10 10 _ (by decide) (by decide) (by decide)
    (Reachable.init _ _ _ (by intro i j; norm_num) (by intro i j; norm_num)
      (by intro i k; norm_num))

/-- C2 counterexample: with `min_points = max_points = 3` (allowed by the
claim's `max_points ≥ min_points`), one application of the `number`
operator to a freshly initialised state — a real reachable state — pushes
the side count to 4, outside `[min_points, max_points]`. -/
theorem C2_counterexample :
    Reachable 1 3 3 10 10
      (changes 3 3 10 10 (initPolys 1 3 3 (fun _ _ => 1) (fun _ _ => 2) (fun _ _ => 7))
        0 MutOp.number ⟨0, 0, 0, [], true, 0, 0, 0, 0⟩) ∧
    ¬ Inv 3 3 10 10
      (changes 3 3 10 10 (initPolys 1 3 3 (fun _ _ => 1) (fun _ _ => 2) (fun _ _ => 7))
        0 MutOp.number ⟨0, 0, 0, [], true, 0, 0, 0, 0⟩) := by
  constructor
  · exact Reachable.step _ 0 MutOp.number _
      (Reachable.init _ _ _ (by intro i j; norm_num) (by intro i j; norm_num)
        (by intro i k; norm_num))
      (by decide) trivial
  · intro h
    have h4 := h.2.1 4 (by decide)
    exact absurd h4.2 (by decide)

/-- Writing an entry of a list at an in-range position is read back by
`getD`. -/
theorem getD_set_self {α : Type _} (l : List α) (i : ℕ) (a : α) (d : α)
    (h : i < l.length) : (l.set i a).getD i d = a := by
  rw [List.getD_eq_getElem?_getD, List.getElem?_set_self (by simpa using h)]
  rfl

/-- C3 (amended: the chosen coordinate pair index ranges over ALL
`max_points` stored pairs — `np.random.choice(max_points)` — not only the
active ones; see the counterexample): the `point` operator adds the drawn
offset to the chosen pair, clamps it into `[0, width] × [0, height]`, and
leaves every other pair of the target polygon, every other polygon, and
the `sides` and `colors` containers unchanged. -/
theorem C3_point_mutation (width height : ℕ) (st : PState) (index pairIdx : ℕ) (dx dy : ℤ)
    (hpair : pairIdx < (st.shapes.getD index []).length) :
    (point width height st index pairIdx dx dy).points = st.points ∧
    (point width height st index pairIdx dx dy).colors = st.colors ∧
    (∀ j, j ≠ index →
      (point width height st index pairIdx dx dy).shapes[j]? = st.shapes[j]?) ∧
    (∀ k, k ≠ pairIdx →
      ((point width height st index pairIdx dx dy).shapes.getD index [])[k]? =
        (st.shapes.getD index [])[k]?) ∧
    ((point width height st index pairIdx dx dy).shapes.getD index []).getD pairIdx (0, 0) =
      (clampI 0 width (((st.shapes.getD index []).getD pairIdx (0, 0)).1 + dx),
       clampI 0 height (((st.shapes.getD index []).getD pairIdx (0, 0)).2 + dy)) ∧
    (0 ≤ clampI 0 width (((st.shapes.getD index []).getD pairIdx (0, 0)).1 + dx) ∧
     clampI 0 width (((st.shapes.getD index []).getD pairIdx (0, 0)).1 + dx) ≤ (width : ℤ)) ∧
    (0 ≤ clampI 0 height (((st.shapes.getD index []).getD pairIdx (0, 0)).2 + dy) ∧
     clampI 0 height (((st.shapes.getD index []).getD pairIdx (0, 0)).2 + dy) ≤ (height : ℤ)) := by
  have hidx : index < st.shapes.length := by
    by_contra hcon
    rw [List.getD_eq_getElem?_getD, List.getElem?_eq_none (le_of_not_lt hcon)] at hpair
    exact absurd hpair (by simp)
  have hget : (point width height st index pairIdx dx dy).shapes.getD index [] =
      (st.shapes.getD index []).set pairIdx
        (clampI 0 width (((st.shapes.getD index []).getD pairIdx (0, 0)).1 + dx),
         clampI 0 height (((st.shapes.getD index []).getD pairIdx (0, 0)).2 + dy)) :=
    getD_set_self _ _ _ _ hidx
  refine ⟨rfl, rfl, ?_, ?_, ?_, ?_, ?_⟩
  · intro j hj
    exact List.getElem?_set_ne (Ne.symm hj)
  · intro k hk
    rw [hget]
    exact List.getElem?_set_ne (Ne.symm hk)
  · rw [hget]
    exact getD_set_self _ _ _ _ hpair
  · exact clampI_bounds 0 width _ (by positivity)
  · exact clampI_bounds 0 height _ (by positivity)

/-- Witness for C3 (amended) at a concrete input: moving pair 0 of a
2-pair polygon by (+3, +4) leaves the side and color containers as they
were. -/
theorem C3_point_mutation_witness :
    (point 10 10 ⟨[[(1, 2), (2, 2)]], [1], [⟨0, 0, 0, 0⟩]⟩ 0 0 3 4).points =
      (⟨[[(1, 2), (2, 2)]], [1], [⟨0, 0, 0, 0⟩]⟩ : PState).points :=
  (C3_point_mutation 10 10 ⟨[[(1, 2), (2, 2)]], [1], [⟨0, 0, 0, 0⟩]⟩ 0 0 3 4 (by decide)).1

/-- C3 counterexample: with `max_points = 2` and `sides[0] = 1`, the
source's `point` operator can draw pair index 1 (`np.random.choice`
ranges over `max_points`, not `sides[index]`), so it mutates an INERT
pair: pair 1 of the target polygon changes from (2, 2) to (5, 5) even
though the only active pair index is 0 — contradicting the claim that the
chosen index is strictly below `sides[index]` and all other pairs are
unchanged. -/
theorem C3_counterexample :
    (point 10 10 ⟨[[(1, 1), (2, 2)]], [1], [⟨0, 0, 0, 0⟩]⟩ 0 1 3 3).shapes =
      [[(1, 1), (5, 5)]] ∧
    ((point 10 10 ⟨[[(1, 1), (2, 2)]], [1], [⟨0, 0, 0, 0⟩]⟩ 0 1 3 3).shapes.getD 0
      []).getD 1 (0, 0) ≠ (2, 2) := by
  decide

/-- C5 (amended: when `min_points = max_points`, a side count equal to
`max_points` is also equal to `min_points` and the source's `min_points`
branch fires first, INCREASING the count — see the counterexample; the
always-decrease clause therefore needs `min_points ≠ max_points`): the
`number` operator increases the target side count by exactly 1 at
`min_points`, decreases it by exactly 1 at `max_points` when the bounds
differ, otherwise moves it by the randomly drawn ±1; the other containers
and all other side counts are unchanged. -/
theorem C5_number_boundaries (minPts maxPts : ℕ) (st : PState) (index : ℕ) (up : Bool)
    (hidx : index < st.points.length)
    (_hl : minPts ≤ st.points.getD index 0) (_hu : st.points.getD index 0 ≤ maxPts) :
    (number minPts maxPts st index up).shapes = st.shapes ∧
    (number minPts maxPts st index up).colors = st.colors ∧
    (∀ j, j ≠ index → (number minPts maxPts st index up).points[j]? = st.points[j]?) ∧
    (st.points.getD index 0 = minPts →
      (number minPts maxPts st index up).points.getD index 0 = st.points.getD index 0 + 1) ∧
    (st.points.getD index 0 = maxPts → minPts ≠ maxPts →
      (number minPts maxPts st index up).points.getD index 0 = st.points.getD index 0 - 1) ∧
    (st.points.getD index 0 ≠ minPts → st.points.getD index 0 ≠ maxPts →
      (number minPts maxPts st index up).points.getD index 0 =
        if up then st.points.getD index 0 + 1 else st.points.getD index 0 - 1) := by
  have hget : ∀ v : ℕ, (st.points.set index v).getD index 0 = v :=
    fun v => getD_set_self _ _ _ _ hidx
  refine ⟨rfl, rfl, ?_, ?_, ?_, ?_⟩
  · intro j hj
    exact List.getElem?_set_ne (Ne.symm hj)
  · intro h1
    show (st.points.set index _).getD index 0 = _
    rw [if_pos h1, hget]
  · intro h1 h2
    have h3 : st.points.getD index 0 ≠ minPts := by
      rw [h1]
      exact (Ne.symm h2)
    show (st.points.set index _).getD index 0 = _
    rw [if_neg h3, if_pos h1, hget]
  · intro h1 h2
    show (st.points.set index _).getD index 0 = _
    rw [if_neg h1, if_neg h2, hget]

/-- Witness for C5 (amended) at a concrete input: with bounds `[3, 5]` and
the side count at the lower bound, the operator yields 4. -/
theorem C5_number_boundaries_witness :
    (number 3 5 ⟨[], [3], []⟩ 0 false).points.getD 0 0 = 3 + 1 :=
  (C5_number_boundaries 3 5 ⟨[], [3], []⟩ 0 false (by decide) (by decide)
    (by decide)).2.2.2.1 rfl

/-- C5 counterexample: with `min_points = max_points = 3` the side count 3
equals `max_points`, so the claim demands a decrease to 2; the code's
`min_points` branch fires first and both random directions yield 4. -/
theorem C5_counterexample :
    (number 3 3 ⟨[], [3], []⟩ 0 true).points = [4] ∧
    (number 3 3 ⟨[], [3], []⟩ 0 false).points = [4] ∧
    (number 3 3 ⟨[], [3], []⟩ 0 true).points ≠ [2] := by
  decide

/-- Reading every position of a list through `getD` along `List.range`
rebuilds the list. -/
theorem map_getD_range {α : Type _} (l : List α) (d : α) (n : ℕ) (h : l.length = n) :
    (List.range n).map (fun j => l.getD j d) = l := by
  subst h
  apply List.ext_getElem (by simp)
  intro i h1 h2
  simp only [List.getElem_map, List.getElem_range]
  exact List.getD_eq_getElem l d h2

/-- Writing back the entry read at an in-range position is the identity. -/
theorem set_getD_self {α : Type _} (l : List α) (i : ℕ) (d : α) (h : i < l.length) :
    l.set i (l.getD i d) = l := by
  apply List.ext_getElem?
  intro j
  by_cases hj : j = i
  · subst hj
    rw [List.getElem?_set_self (by simpa using h), List.getD_eq_getElem l d h,
      List.getElem?_eq_getElem h]
  · exact List.getElem?_set_ne (Ne.symm hj)

/-- C6: the `order` operator permutes the target polygon's first
`sides[index]` (active) coordinate pairs by the drawn permutation — the
same permutation for x's and y's, embedded as a permutation of whole
pairs — so the multiset of active pairs is preserved and no point moves;
the inert tail, the other polygons and the other containers are untouched;
and with `sides[index] = 1` the operator is the identity on the polygon
set. -/
theorem C6_order_permutation (st : PState) (index : ℕ) (perm : List ℕ)
    (hidx : index < st.shapes.length)
    (hperm : List.Perm perm (List.range (st.points.getD index 0)))
    (hs : st.points.getD index 0 ≤ (st.shapes.getD index []).length) :
    (order st index perm).points = st.points ∧
    (order st index perm).colors = st.colors ∧
    (∀ j, j ≠ index → (order st index perm).shapes[j]? = st.shapes[j]?) ∧
    List.Perm (((order st index perm).shapes.getD index []).take (st.points.getD index 0))
      ((st.shapes.getD index []).take (st.points.getD index 0)) ∧
    ((order st index perm).shapes.getD index []).drop (st.points.getD index 0) =
      (st.shapes.getD index []).drop (st.points.getD index 0) ∧
    (st.points.getD index 0 = 1 → order st index perm = st) := by
  have hplen : perm.length = st.points.getD index 0 := by
    rw [hperm.length_eq, List.length_range]
  have htakelen : ((st.shapes.getD index []).take (st.points.getD index 0)).length =
      st.points.getD index 0 := by
    rw [List.length_take]
    exact min_eq_left hs
  have hget : (order st index perm).shapes.getD index [] =
      perm.map (fun j =>
        ((st.shapes.getD index []).take (st.points.getD index 0)).getD j (0, 0)) ++
      (st.shapes.getD index []).drop (st.points.getD index 0) :=
    getD_set_self _ _ _ _ hidx
  have hmaplen : (perm.map (fun j =>
      ((st.shapes.getD index []).take (st.points.getD index 0)).getD j (0, 0))).length =
      st.points.getD index 0 := by
    rw [List.length_map, hplen]
  refine ⟨rfl, rfl, ?_, ?_, ?_, ?_⟩
  · intro j hj
    exact List.getElem?_set_ne (Ne.symm hj)
  · rw [hget, List.take_left' hmaplen]
    have h1 := hperm.map (fun j =>
      ((st.shapes.getD index []).take (st.points.getD index 0)).getD j (0, 0))
    rwa [map_getD_range _ _ _ htakelen] at h1
  · rw [hget, List.drop_left' hmaplen]
  · intro h1
    have hlen1 : 0 < (st.shapes.getD index []).length := by omega
    have hperm1 : perm = [0] := by
      rw [h1, show List.range 1 = [0] from rfl] at hperm
      exact List.perm_singleton.mp hperm
    have hpoly : perm.map (fun j =>
        ((st.shapes.getD index []).take (st.points.getD index 0)).getD j (0, 0)) ++
        (st.shapes.getD index []).drop (st.points.getD index 0) =
        st.shapes.getD index [] := by
      rw [hperm1, h1]
      have hg : ((st.shapes.getD index []).take 1).getD 0 (0, 0) =
          (st.shapes.getD index []).getD 0 (0, 0) := by
        simp [List.getD_eq_getElem?_getD, List.getElem?_take_of_lt Nat.zero_lt_one]
      show [((st.shapes.getD index []).take 1).getD 0 (0, 0)] ++
        (st.shapes.getD index []).drop 1 = st.shapes.getD index []
      rw [hg, List.getD_eq_getElem _ _ hlen1, List.singleton_append]
      have h2 := List.getElem_cons_drop (st.shapes.getD index []) 0 hlen1
      simpa using h2
    show ({ st with shapes := st.shapes.set index _ } : PState) = st
    rw [hpoly, set_getD_self _ _ _ hidx]

/-- Witness for C6 at a concrete input: swapping the two active pairs of a
3-pair polygon leaves the inert tail untouched. -/
theorem C6_order_permutation_witness :
    ((order ⟨[[(1, 1), (2, 2), (3, 3)]], [2], []⟩ 0 [1, 0]).shapes.getD 0 []).drop 2 =
      (((⟨[[(1, 1), (2, 2), (3, 3)]], [2], []⟩ : PState)).shapes.getD 0 []).drop 2 :=
  (C6_order_permutation ⟨[[(1, 1), (2, 2), (3, 3)]], [2], []⟩ 0 [1, 0] (by decide)
    (by decide) (by decide)).2.2.2.2.1

/-- One pixel's absolute difference is at most 3 · 255 for 8-bit pixels. -/
theorem pxDiff_le (p q : RGB) (hp : p.r ≤ 255 ∧ p.g ≤ 255 ∧ p.b ≤ 255)
    (hq : q.r ≤ 255 ∧ q.g ≤ 255 ∧ q.b ≤ 255) : pxDiff p q ≤ 765 := by
  unfold pxDiff
  omega

/-- One row's difference is at most `length · 765` for 8-bit rows. -/
theorem rowDiff_le (r s : List RGB)
    (hr : ∀ p ∈ r, p.r ≤ 255 ∧ p.g ≤ 255 ∧ p.b ≤ 255)
    (hs : ∀ p ∈ s, p.r ≤ 255 ∧ p.g ≤ 255 ∧ p.b ≤ 255) :
    rowDiff r s ≤ r.length * 765 := by
  induction r generalizing s with
  | nil => simp [rowDiff]
  | cons p r ih =>
    cases s with
    | nil => simp [rowDiff]
    | cons q s =>
      have h1 := pxDiff_le p q (hr p (List.mem_cons_self p r)) (hs q (List.mem_cons_self q s))
      have h2 := ih s (fun x hx => hr x (List.mem_cons_of_mem p hx))
        (fun x hx => hs x (List.mem_cons_of_mem q hx))
      unfold rowDiff at h2 ⊢
      rw [List.zipWith_cons_cons, List.sum_cons, List.length_cons, Nat.succ_mul]
      omega

/-- The total absolute error of two same-width 8-bit rasters is at most
`height · width · 765`. -/
theorem error_abs_le (width : ℕ) :
    ∀ (a b : Raster), (∀ row ∈ a, row.length = width) → ChansLe a → ChansLe b →
      error_abs a b ≤ a.length * (width * 765)
  | [], _, _, _, _ => by simp [error_abs]
  | _ :: _, [], _, _, _ => by simp [error_abs]
  | r :: a, t :: b, har, hca, hcb => by
    have h1 : rowDiff r t ≤ width * 765 := by
      have h0 := rowDiff_le r t (hca r (List.mem_cons_self r a))
        (hcb t (List.mem_cons_self t b))
      rwa [har r (List.mem_cons_self r a)] at h0
    have h2 := error_abs_le width a b
      (fun row hrow => har row (List.mem_cons_of_mem r hrow))
      (fun row hrow => hca row (List.mem_cons_of_mem r hrow))
      (fun row hrow => hcb row (List.mem_cons_of_mem t hrow))
    unfold error_abs at h2 ⊢
    rw [List.zipWith_cons_cons, List.sum_cons, List.length_cons, Nat.succ_mul]
    omega

/-- C7: `error_percent` computes `error / (width · height · 255 · 3) · 100`
for a reference raster of the given shape, and for the `error_abs` of two
same-shaped 8-bit rasters the result lies in `[0, 100]`. -/
theorem C7_error_percent_bounds (a b : Raster) (width height : ℕ)
    (hw : 0 < width) (hh : 0 < height)
    (ha : Dims a width height) (hb : Dims b width height)
    (hca : ChansLe a) (hcb : ChansLe b) :
    (∀ e : ℕ, error_percent e b = (e : ℚ) / ((width : ℚ) * height * 255 * 3) * 100) ∧
    0 ≤ error_percent (error_abs a b) b ∧
    error_percent (error_abs a b) b ≤ 100 := by
  have hbnil : b ≠ [] := by
    intro hcon
    rw [hcon] at hb
    have h0 : (0 : ℕ) = height := hb.1
    omega
  have hhead : (b.headD []).length = width := by
    rw [List.headD_eq_head?_getD, List.head?_eq_head hbnil, Option.getD_some]
    exact hb.2 _ (List.head_mem hbnil)
  have hform : ∀ e : ℕ,
      error_percent e b = (e : ℚ) / ((width : ℚ) * height * 255 * 3) * 100 := by
    intro e
    unfold error_percent
    rw [hb.1, hhead]
    ring_nf
  refine ⟨hform, ?_, ?_⟩
  · rw [hform]
    have hpos : (0 : ℚ) < (width : ℚ) * height * 255 * 3 := by positivity
    positivity
  · rw [hform]
    have hpos : (0 : ℚ) < (width : ℚ) * height * 255 * 3 := by positivity
    have hle : (error_abs a b : ℚ) ≤ (width : ℚ) * height * 255 * 3 := by
      have h1 : error_abs a b ≤ height * (width * 765) := by
        have h0 := error_abs_le width a b ha.2 hca hcb
        rwa [ha.1] at h0
      calc (error_abs a b : ℚ) ≤ ((height * (width * 765) : ℕ) : ℚ) := by
            exact_mod_cast h1
        _ = (width : ℚ) * height * 255 * 3 := by push_cast; ring
    calc error_abs a b / ((width : ℚ) * height * 255 * 3) * 100
        ≤ 1 * 100 := by
          apply mul_le_mul_of_nonneg_right _ (by norm_num)
          exact (div_le_one hpos).mpr hle
      _ = 100 := one_mul 100

/-- Witness for C7 at concrete 1×1 rasters: a black pixel against a white
reference gives exactly 100 percent error, inside `[0, 100]`. -/
theorem C7_error_percent_bounds_witness :
    0 ≤ error_percent (error_abs [[⟨0, 0, 0⟩]] [[⟨255, 255, 255⟩]]) [[⟨255, 255, 255⟩]] ∧
    error_percent (error_abs [[⟨0, 0, 0⟩]] [[⟨255, 255, 255⟩]]) [[⟨255, 255, 255⟩]] ≤ 100 :=
  (C7_error_percent_bounds [[⟨0, 0, 0⟩]] [[⟨255, 255, 255⟩]] 1 1 (by decide) (by decide)
    (by constructor <;> decide) (by constructor <;> decide)
    (by unfold ChansLe; decide) (by unfold ChansLe; decide)).2

/-- C8 (amended: "exactly one container differs" weakens to "at most
one" — operators write exactly one container, but the write can reproduce
the old value, e.g. a `point` mutation with zero offsets, see the
counterexample): every operator application passes two of the three
containers through unchanged, and at every polygon index other than the
target all three containers are unchanged. (In this embedding a mutation
is a pure function of the polygon set, so the input set itself is
untouched — the embedded form of the source's `.copy()`-before-write
discipline.) -/
theorem C8_frame (minPts maxPts width height : ℕ) (st : PState) (index : ℕ)
    (op : MutOp) (r : Rand) :
    (((changes minPts maxPts width height st index op r).points = st.points ∧
      (changes minPts maxPts width height st index op r).colors = st.colors) ∨
     ((changes minPts maxPts width height st index op r).shapes = st.shapes ∧
      (changes minPts maxPts width height st index op r).colors = st.colors) ∨
     ((changes minPts maxPts width height st index op r).shapes = st.shapes ∧
      (changes minPts maxPts width height st index op r).points = st.points)) ∧
    (∀ j, j ≠ index →
      (changes minPts maxPts width height st index op r).shapes[j]? = st.shapes[j]? ∧
      (changes minPts maxPts width height st index op r).points[j]? = st.points[j]? ∧
      (changes minPts maxPts width height st index op r).colors[j]? = st.colors[j]?) := by
  cases op with
  | point => exact ⟨Or.inl ⟨rfl, rfl⟩,
      fun j hj => ⟨List.getElem?_set_ne (Ne.symm hj), rfl, rfl⟩⟩
  | shape => exact ⟨Or.inl ⟨rfl, rfl⟩,
      fun j hj => ⟨List.getElem?_set_ne (Ne.symm hj), rfl, rfl⟩⟩
  | order => exact ⟨Or.inl ⟨rfl, rfl⟩,
      fun j hj => ⟨List.getElem?_set_ne (Ne.symm hj), rfl, rfl⟩⟩
  | number => exact ⟨Or.inr (Or.inl ⟨rfl, rfl⟩),
      fun j hj => ⟨rfl, List.getElem?_set_ne (Ne.symm hj), rfl⟩⟩
  | color => exact ⟨Or.inr (Or.inr ⟨rfl, rfl⟩),
      fun j hj => ⟨rfl, rfl, List.getElem?_set_ne (Ne.symm hj)⟩⟩
  | alpha => exact ⟨Or.inr (Or.inr ⟨rfl, rfl⟩),
      fun j hj => ⟨rfl, rfl, List.getElem?_set_ne (Ne.symm hj)⟩⟩

/-- Witness for C8 at a concrete input: a `color` mutation leaves the
polygon at index 1 unchanged in all three containers. -/
theorem C8_frame_witness :
    (changes 3 4 10 10 ⟨[[(1, 1)], [(2, 2)]], [3, 3], [⟨1, 2, 3, 4⟩, ⟨5, 6, 7, 8⟩]⟩
        0 MutOp.color ⟨0, 0, 0, [], true, 10, 10, 10, 0⟩).colors[1]? =
      (⟨[[(1, 1)], [(2, 2)]], [3, 3], [⟨1, 2, 3, 4⟩, ⟨5, 6, 7, 8⟩]⟩ : PState).colors[1]? :=
  ((C8_frame 3 4 10 10 ⟨[[(1, 1)], [(2, 2)]], [3, 3], [⟨1, 2, 3, 4⟩, ⟨5, 6, 7, 8⟩]⟩
    0 MutOp.color ⟨0, 0, 0, [], true, 10, 10, 10, 0⟩).2 1 (by decide)).2.2

/-- C8 counterexample: a `point` mutation with zero offsets on an in-bounds
pair returns a polygon set equal to the input, so NO container differs —
the claim's "exactly one of the three containers differs" fails at this
input (the drawn offsets 0 are inside the legal range `[-R, R]`). -/
theorem C8_counterexample :
    changes 3 4 10 10 ⟨[[(1, 1), (2, 2), (3, 3), (4, 4)]], [3], [⟨5, 5, 5, 5⟩]⟩
        0 MutOp.point ⟨0, 0, 0, [], true, 0, 0, 0, 0⟩ =
      ⟨[[(1, 1), (2, 2), (3, 3), (4, 4)]], [3], [⟨5, 5, 5, 5⟩]⟩ := by
  decide

/-- `List.mapIdx` with a function that fixes every entry is the identity. -/
theorem mapIdx_fix {α : Type _} (f : ℕ → α → α) (l : List α)
    (h : ∀ i a, a ∈ l → f i a = a) : l.mapIdx f = l := by
  induction l generalizing f with
  | nil => simp
  | cons a l ih =>
    rw [List.mapIdx_cons, h 0 a (List.mem_cons_self a l),
      ih (fun i x => f (i + 1) x) (fun i x hx => h (i + 1) x (List.mem_cons_of_mem a hx))]

/-- Compositing a pure-white source over a white pixel is white, for any
alpha value up to 255. -/
theorem composite_white (c : RGBA) (hr : c.r = 255) (hg : c.g = 255) (hb : c.b = 255)
    (ha : c.a ≤ 255) : composite ⟨255, 255, 255⟩ c = ⟨255, 255, 255⟩ := by
  unfold composite
  have key : ∀ x : ℕ, x = 255 → (x * c.a + 255 * (255 - c.a)) / 255 = 255 := by
    intro x hx
    subst hx
    rw [← Nat.mul_add, Nat.add_sub_cancel' ha]
  rw [hr, hg, hb]
  simp only [RGB.mk.injEq]
  exact ⟨key 255 rfl, key 255 rfl, key 255 rfl⟩

/-- Painting any polygon in a pure-white color over the white canvas leaves
the canvas white, whatever the coverage oracle says. -/
theorem paintPoly_white (width height : ℕ) (pts : List (ℤ × ℤ)) (c : RGBA) (cov : Coverage)
    (hc : c.r = 255 ∧ c.g = 255 ∧ c.b = 255 ∧ c.a ≤ 255) :
    paintPoly (whiteRaster width height) pts c cov = whiteRaster width height := by
  unfold paintPoly whiteRaster
  apply mapIdx_fix
  intro y row hrow
  rw [List.eq_of_mem_replicate hrow]
  apply mapIdx_fix
  intro x px hpx
  rw [List.eq_of_mem_replicate hpx]
  by_cases hcov : cov pts x y
  · rw [if_pos hcov, composite_white c hc.1 hc.2.1 hc.2.2.1 hc.2.2.2]
  · rw [if_neg hcov]

/-- Rendering a polygon set whose colors are all pure white gives the
all-white raster, for every coverage oracle. -/
theorem draw_white (width height : ℕ) (st : PState) (cov : Coverage)
    (hc : ∀ c ∈ st.colors, c.r = 255 ∧ c.g = 255 ∧ c.b = 255 ∧ c.a ≤ 255) :
    draw_image width height st cov = whiteRaster width height := by
  unfold draw_image
  have hmem : ∀ x ∈ st.shapes.zip (st.points.zip st.colors), x.2.2 ∈ st.colors := by
    intro x hx
    obtain ⟨x1, x2⟩ := x
    obtain ⟨x21, x22⟩ := x2
    exact (List.of_mem_zip (List.of_mem_zip hx).2).2
  generalize st.shapes.zip (st.points.zip st.colors) = l at hmem
  induction l with
  | nil => rfl
  | cons x l ih =>
    rw [List.foldl_cons,
      paintPoly_white width height _ _ cov (hc _ (hmem x (List.mem_cons_self x l)))]
    exact ih (fun y hy => hmem y (List.mem_cons_of_mem x hy))

/-- A raster differs from itself by zero. -/
theorem error_abs_self (r : Raster) : error_abs r r = 0 := by
  unfold error_abs
  induction r with
  | nil => rfl
  | cons row r ih =>
    rw [List.zipWith_cons_cons, List.sum_cons, ih, Nat.add_zero]
    unfold rowDiff
    induction row with
    | nil => rfl
    | cons p row ihp =>
      rw [List.zipWith_cons_cons, List.sum_cons, ihp]
      unfold pxDiff
      omega

/-- C9 (amended: the initial `error_abs` is 0 and the accepted score stays
0 at every iteration; but the claim's "no mutation is ever accepted" fails
— the acceptance rule takes ties, and a zero-error candidate replaces the
state, see the counterexample): in the all-white scenario (10×10 white
internal target, single polygon colored pure white with alpha 255) the
initial score is 0 and every accepted state of every run keeps score 0. -/
theorem C9_white_scenario (cov : Coverage) (shapes : List (List (ℤ × ℤ)))
    (points : List ℕ) (ms : List MutChoice) :
    error_abs (whiteRaster 10 10)
      (draw_image 10 10 ⟨shapes, points, [⟨255, 255, 255, 255⟩]⟩ cov) = 0 ∧
    (run 3 3 10 10 cov (whiteRaster 10 10)
      ⟨⟨shapes, points, [⟨255, 255, 255, 255⟩]⟩,
       draw_image 10 10 ⟨shapes, points, [⟨255, 255, 255, 255⟩]⟩ cov,
       error_abs (whiteRaster 10 10)
         (draw_image 10 10 ⟨shapes, points, [⟨255, 255, 255, 255⟩]⟩ cov)⟩ ms).score = 0 := by
  have hwhite : draw_image 10 10 ⟨shapes, points, [⟨255, 255, 255, 255⟩]⟩ cov =
      whiteRaster 10 10 := by
    apply draw_white
    intro c hcmem
    rw [List.mem_singleton.mp hcmem]
    exact ⟨rfl, rfl, rfl, le_rfl⟩
  have hzero : error_abs (whiteRaster 10 10)
      (draw_image 10 10 ⟨shapes, points, [⟨255, 255, 255, 255⟩]⟩ cov) = 0 := by
    rw [hwhite]
    exact error_abs_self _
  refine ⟨hzero, Nat.le_zero.mp ?_⟩
  exact le_trans
    (run_score_le 3 3 10 10 cov (whiteRaster 10 10)
      ⟨⟨shapes, points, [⟨255, 255, 255, 255⟩]⟩,
       draw_image 10 10 ⟨shapes, points, [⟨255, 255, 255, 255⟩]⟩ cov,
       error_abs (whiteRaster 10 10)
         (draw_image 10 10 ⟨shapes, points, [⟨255, 255, 255, 255⟩]⟩ cov)⟩ ms)
    (le_of_eq hzero)

/-- C9 counterexample: in the all-white scenario a `point` mutation moving
a vertex still renders all-white, scores 0 ≤ 0, and IS accepted — the
returned state carries the mutated polygon, so "no mutation is ever
accepted" is false. (The coverage oracle here is the constant-false one;
by `C9_white_scenario` the score is 0 for every oracle.) -/
theorem C9_counterexample :
    (iterate 3 3 10 10 (fun _ _ _ => false) (whiteRaster 10 10)
      ⟨⟨[[(0, 0), (5, 0), (0, 5)]], [3], [⟨255, 255, 255, 255⟩]⟩, whiteRaster 10 10, 0⟩
      ⟨0, MutOp.point, ⟨0, 1, 1, [], true, 0, 0, 0, 0⟩⟩).pstate.shapes =
      [[(1, 1), (5, 0), (0, 5)]] := by
  decide

end EvoLisa
